import Mathlib

/-!
Verification of `exfat_integrity_checker.py`.

The Python script is shallowly embedded below.  Conventions of the embedding:

* A byte is a `Nat` (values below 256 in any real run; nothing below depends
  on the bound).  File contents are `List Nat`.
* The on-disk tree that `os.walk` enumerates is a `List FSFile`: one entry per
  regular file, carrying the full joined path that `os.path.join(dirpath,
  fname)` produces, the byte content of the file (or `none` when any of
  `os.stat` / `open` / `read` would raise for that path — the `try` blocks of
  the script treat every such exception identically, by printing and skipping
  the file), and the `st_mtime` / `st_size` metadata.  The list order is the
  traversal order of `os.walk`; the filesystem is static for the duration of a
  run.
* The SQLite table `files (path TEXT PRIMARY KEY, hash TEXT, mtime REAL, size
  INTEGER)` is a `List FileRecord` in row order.  The `PRIMARY KEY` constraint
  means a real table never holds two rows with the same path; theorems that
  start from an arbitrary store therefore carry a `Nodup` hypothesis on the
  stored paths where the result depends on it.  `REPLACE INTO` is `upsert`
  (delete any old row for the key, insert the new row), `DELETE FROM files
  WHERE path = ?` is `deleteRec`, and the dictionary built by
  `{row[0]: row[1] for row in c.fetchall()}` is queried through `lookupHash`.
* `st_mtime` (a Python float) is modelled as an `Int`; it is only ever stored
  and copied, never computed with.
* Python `str` values are Lean `String`s; the path manipulations of the script
  (`os.path.basename`, `str.startswith`, `str.split`, `os.path.normpath` with
  `os.sep = "/"`) are implemented structurally on the underlying character
  lists so that they are executable by the kernel.
-/

/-- Modelled from the spec: the streaming hash object returned by
`hashlib.new(algo)` of the Python standard library, which is outside this
repository.  `hashlib` guarantees that `update` absorbs bytes into the stream
and that the digest is a deterministic function of the algorithm and of the
absorbed stream, so the state is the algorithm name together with the bytes
absorbed so far. -/
structure HashObj where
  algo : String
  absorbed : List Nat
deriving DecidableEq

/-- Modelled from the spec: `hashlib.new(algo)` — a fresh hash object that has
absorbed nothing. -/
def hashlib_new (algo : String) : HashObj :=
  ⟨algo, []⟩

/-- Modelled from the spec: `h.update(chunk)` absorbs one chunk of bytes. -/
def HashObj.update (h : HashObj) (chunk : List Nat) : HashObj :=
  { h with absorbed := h.absorbed ++ chunk }

/-- Modelled from the spec: the digest primitive of the external `hashlib`
library (for this script, SHA-256), which is not part of this repository.  The
spec only requires a deterministic fixed-length digest of the algorithm name
and the absorbed byte stream; it is modelled as a concrete 32-byte mixing
fold, and no theorem below depends on its internal structure. -/
def digestBytes (algo : String) (data : List Nat) : List Nat :=
  let seed := (algo.toList.map Char.toNat).foldl (fun a b => (a * 31 + b) % 4294967296) 7
  (List.range 32).map fun i =>
    (data.foldl (fun a b => (a * 131 + b + i + 1) % 4294967296) (seed + i)) % 256

/-- Hex encoding of one byte as two lowercase hex digits. -/
def hexByte (b : Nat) : String :=
  let digit := fun n => "0123456789abcdef".toList.getD n '0'
  String.mk [digit (b / 16 % 16), digit (b % 16)]

/-- Modelled from the spec: `h.hexdigest()` — the hex-encoded digest of the
absorbed stream. -/
def HashObj.hexdigest (h : HashObj) : String :=
  String.join ((digestBytes h.algo h.absorbed).map hexByte)

/-- Successive chunks returned by `f.read(chunk_size)` in the loop
`iter(lambda: f.read(chunk_size), b"")` of `compute_hash`, for a file whose
full byte content is `content`, with explicit fuel to make the recursion
structural.  `f.read(0)` returns `b""` at once, so a zero chunk size ends the
iteration immediately, exactly as in Python. -/
def readChunksFuel (chunk_size : Nat) : Nat → List Nat → List (List Nat)
  | _, [] => []
  | 0, _ => []
  | fuel + 1, content =>
    if chunk_size = 0 then []
    else content.take chunk_size :: readChunksFuel chunk_size fuel (content.drop chunk_size)

/-- Chunks read from a file with content `content`: each successful `read`
consumes at least one byte, so `content.length` steps of fuel are enough. -/
def readChunks (chunk_size : Nat) (content : List Nat) : List (List Nat) :=
  readChunksFuel chunk_size content.length content

/-- Function `compute_hash(path, algo="sha256", chunk_size=8192)` of the script
(lines 23–29), applied to a file whose byte content is `content`: feed the
chunks read from the file into a fresh hash object and return its hexdigest. -/
def compute_hash (content : List Nat) (algo : String := "sha256")
    (chunk_size : Nat := 8192) : String :=
  ((readChunks chunk_size content).foldl HashObj.update (hashlib_new algo)).hexdigest

/-- Python `s.split(sep)` for a one-character separator, on character lists:
`splitSep c s` never returns an empty list, and empty components are kept. -/
def splitSep (sep : Char) : List Char → List (List Char)
  | [] => [[]]
  | c :: cs =>
    if c = sep then [] :: splitSep sep cs
    else
      match splitSep sep cs with
      | [] => [[c]]
      | w :: ws => (c :: w) :: ws

/-- Python `sep.join(parts)` for a one-character separator, on character
lists. -/
def joinSep (sep : Char) : List (List Char) → List Char
  | [] => []
  | [w] => w
  | w :: ws => w ++ sep :: joinSep sep ws

/-- Python `os.path.basename(p)` on POSIX: the part of `p` after the last
slash, i.e. the last component of `p.split("/")`. -/
def basename (p : List Char) : List Char :=
  ((splitSep '/' p).getLast?).getD []

/-- Python `os.path.normpath(path)` on POSIX (`posixpath.normpath`): collapse
repeated separators, drop `.` components, resolve `..` components (keeping
leading `..` on relative paths and preserving one or two initial slashes). -/
def normpath (path : List Char) : List Char :=
  if path = [] then ['.']
  else
    let initial_slashes : Nat :=
      if List.isPrefixOf ['/'] path then
        if List.isPrefixOf ['/', '/'] path ∧ ¬ List.isPrefixOf ['/', '/', '/'] path then 2
        else 1
      else 0
    let comps := splitSep '/' path
    let new_comps := comps.foldl
      (fun acc comp =>
        if comp = [] ∨ comp = ['.'] then acc
        else if comp ≠ ['.', '.'] ∨ (initial_slashes = 0 ∧ acc = []) ∨
            (acc ≠ [] ∧ acc.getLast? = some ['.', '.']) then
          acc ++ [comp]
        else if acc ≠ [] then acc.dropLast
        else acc)
      []
    let joined := List.replicate initial_slashes '/' ++ joinSep '/' new_comps
    if joined = [] then ['.'] else joined

/-- Filename patterns of `should_ignore_file` (lines 38–51 of the script). -/
def ignored_patterns : List String :=
  [".DS_Store", "._", ".Spotlight-V100", ".Trashes", ".fseventsd",
   ".TemporaryItems", "Icon\r", ".AppleDouble", ".LSOverride",
   ".DocumentRevisions-V100", ".VolumeIcon.icns", ".com.apple.timemachine."]

/-- Directory names of `should_ignore_file` (lines 54–62 of the script). -/
def ignored_dirs : List String :=
  [".Spotlight-V100", ".Trashes", ".fseventsd", ".TemporaryItems",
   ".AppleDouble", ".DocumentRevisions-V100", "__MACOSX"]

/-- Function `should_ignore_file(filepath)` of the script (lines 32–78): a file
is ignored when its basename starts with one of the `ignored_patterns`, or
when any component of the normalized path is one of the `ignored_dirs`. -/
def should_ignore_file (filepath : String) : Bool :=
  let filename := basename filepath.data
  if ignored_patterns.any (fun pattern => List.isPrefixOf pattern.data filename) then
    true
  else
    let filepath_normalized := normpath filepath.data
    let path_parts := splitSep '/' filepath_normalized
    ignored_dirs.any (fun d => path_parts.contains d.data)

/-- One regular file of the enumerated tree: its full path, its byte content
(`none` when reading or statting it raises), and its stat metadata. -/
structure FSFile where
  path : String
  content : Option (List Nat)
  mtime : Int
  size : Nat
deriving DecidableEq

/-- One row of the SQLite table `files`. -/
structure FileRecord where
  path : String
  hash : String
  mtime : Int
  size : Nat
deriving DecidableEq

/-- Lookup of the row for a path, i.e. a `SELECT ... WHERE path = ?`; under the
`PRIMARY KEY` invariant at most one row matches. -/
def lookupRec (db : List FileRecord) (p : String) : Option FileRecord :=
  db.find? (fun r => r.path == p)

/-- Lookup in the dictionary `existing = {path: hash}` built by `check_db`
from `SELECT path, hash FROM files` (lines 143–144 of the script). -/
def lookupHash (db : List FileRecord) (p : String) : Option String :=
  (lookupRec db p).map (·.hash)

/-- Statement `REPLACE INTO files VALUES (?, ?, ?, ?)`: on a table whose `path`
column is the primary key this deletes any existing row with the same path and
inserts the new row. -/
def upsert (db : List FileRecord) (r : FileRecord) : List FileRecord :=
  db.filter (fun x => x.path != r.path) ++ [r]

/-- Statement `DELETE FROM files WHERE path = ?` (line 203 of the script). -/
def deleteRec (db : List FileRecord) (p : String) : List FileRecord :=
  db.filter (fun r => r.path != p)

/-- Function `connect_db(db_path)` of the script (lines 81–95): open the store
and issue `CREATE TABLE IF NOT EXISTS files ...`, so a location holding no
prior snapshot yields the empty table.  The argument is the table contents at
the location, `none` when no database file exists there yet. -/
def connect_db (store : Option (List FileRecord)) : List FileRecord :=
  store.getD []

/-- Running state of `init_db`: the table contents, the `processed` counter,
and the number of `conn.commit()` calls issued inside `init_db` itself (lines
129 and 133 of the script; the schema commit inside `connect_db` is not
counted here). -/
structure InitState where
  db : List FileRecord
  processed : Nat
  commits : Nat
deriving DecidableEq

/-- Body of the `init_db` loop (lines 114–131 of the script) for one
enumerated file: skip ignored files; on a stat/read error print and skip;
otherwise `REPLACE INTO` the new record, bump `processed`, and commit when
`processed % 10 == 0`. -/
def initStep (s : InitState) (f : FSFile) : InitState :=
  if should_ignore_file f.path then s
  else
    match f.content with
    | none => s
    | some content =>
      let file_hash := compute_hash content
      let s' : InitState :=
        ⟨upsert s.db ⟨f.path, file_hash, f.mtime, f.size⟩, s.processed + 1, s.commits⟩
      if s'.processed % 10 == 0 then { s' with commits := s'.commits + 1 } else s'

/-- Function `init_db(root, db_path)` of the script (lines 98–135), run over
the enumerated tree `fs` with prior table contents `db`: fold the loop body
over every enumerated file, then issue the final `conn.commit()` of line
133. -/
def init_db (fs : List FSFile) (db : List FileRecord) : InitState :=
  let s := fs.foldl initStep ⟨db, 0, 0⟩
  { s with commits := s.commits + 1 }

/-- Running state of the `check_db` verification loop: the `found_paths` set
(as the list of paths added to it, membership being all that is ever queried),
the `added` and `modified` lists, and the table contents. -/
structure CheckState where
  found : List String
  added : List String
  modified : List String
  db : List FileRecord
deriving DecidableEq

/-- Body of the `check_db` verification loop (lines 162–195 of the script) for
one enumerated file: skip ignored files; record the path in `found_paths`
before hashing; on a read error print and skip; otherwise classify against
the `existing` dictionary loaded at the start of the run, upserting a new
record for added and for modified paths. -/
def checkStep (existing : List FileRecord) (s : CheckState) (f : FSFile) : CheckState :=
  if should_ignore_file f.path then s
  else
    let s1 := { s with found := s.found ++ [f.path] }
    match f.content with
    | none => s1
    | some content =>
      let new_hash := compute_hash content
      match lookupHash existing f.path with
      | none =>
        { s1 with added := s1.added ++ [f.path],
                  db := upsert s1.db ⟨f.path, new_hash, f.mtime, f.size⟩ }
      | some old =>
        if new_hash ≠ old then
          { s1 with modified := s1.modified ++ [f.path],
                    db := upsert s1.db ⟨f.path, new_hash, f.mtime, f.size⟩ }
        else s1

/-- State of `check_db` after the verification loop over the whole enumerated
tree `fs`, starting from table contents `db` (the `existing` dictionary is
loaded from the same `db` at the start of the run). -/
def check_run (fs : List FSFile) (db : List FileRecord) : CheckState :=
  fs.foldl (checkStep db) ⟨[], [], [], db⟩

/-- Per-run output of `check_db`: the three reported path lists and the table
contents at the single final commit of line 206. -/
structure CheckReport where
  added : List String
  modified : List String
  removed : List String
  db : List FileRecord
deriving DecidableEq

/-- Function `check_db(root, db_path)` of the script (lines 138–224), run over
the enumerated tree `fs` with table contents `db` (as produced by
`connect_db`): load `existing`, run the verification loop, compute `removed`
as the stored paths missing from `found_paths`, delete each removed path, and
commit once. -/
def check_db (fs : List FSFile) (db : List FileRecord) : CheckReport :=
  let existing := db
  let s := check_run fs db
  let removed := (existing.map (·.path)).filter (fun p => decide (p ∉ s.found))
  let db2 := removed.foldl deleteRec s.db
  ⟨s.added, s.modified, removed, db2⟩

/-- Paths of the enumerated tree that pass the ignore filter: exactly the
paths on which `compute_hash` is invoked by `check_db`, and the paths added to
`found_paths`; in `init_db` these are the paths reaching the `try` block
(hashing is attempted on no other path in either operation). -/
def enumeratedPaths (fs : List FSFile) : List String :=
  fs.filterMap fun f => if should_ignore_file f.path then none else some f.path

/-- Paths of the enumerated, non-ignored files whose stat and digest succeed
(the files the run actually processes). -/
def processedPaths (fs : List FSFile) : List String :=
  fs.filterMap fun f =>
    if should_ignore_file f.path then none
    else
      match f.content with
      | none => none
      | some _ => some f.path

/-- Modelled from the spec: the set of paths "successfully found during this
run" in the sense of the spec sections 4.4 and 8 — enumerated, non-ignored
paths whose digest succeeded.  The spec subtracts this set from the stored
paths to obtain `removed`; it is stated here for comparison with the found-set
the code actually uses. -/
def spec_successfullyFound (fs : List FSFile) : List String :=
  fs.filterMap fun f =>
    if should_ignore_file f.path then none
    else
      match f.content with
      | none => none
      | some _ => some f.path

/-- Path reported as added by the loop body for one enumerated file, if any:
non-ignored, digest succeeded, path absent from the `existing` dictionary. -/
def addedEntry (existing : List FileRecord) (f : FSFile) : Option String :=
  if should_ignore_file f.path then none
  else
    match f.content, lookupHash existing f.path with
    | some _, none => some f.path
    | _, _ => none

/-- Path reported as modified by the loop body for one enumerated file, if
any: non-ignored, digest succeeded and differs from the stored hash. -/
def modifiedEntry (existing : List FileRecord) (f : FSFile) : Option String :=
  if should_ignore_file f.path then none
  else
    match f.content, lookupHash existing f.path with
    | some c, some old => if compute_hash c ≠ old then some f.path else none
    | _, _ => none

/-- Record upserted by the `check_db` loop body for one enumerated file, if
any (the added and the modified case store the same new record). -/
def upsertRecordOf (existing : List FileRecord) (f : FSFile) : Option FileRecord :=
  if should_ignore_file f.path then none
  else
    match f.content, lookupHash existing f.path with
    | some c, none => some ⟨f.path, compute_hash c, f.mtime, f.size⟩
    | some c, some old =>
      if compute_hash c ≠ old then some ⟨f.path, compute_hash c, f.mtime, f.size⟩ else none
    | none, _ => none

/-- Record upserted by the `init_db` loop body for one enumerated file, if
any: non-ignored files whose stat and digest succeed. -/
def initRecordOf (f : FSFile) : Option FileRecord :=
  if should_ignore_file f.path then none
  else
    match f.content with
    | none => none
    | some c => some ⟨f.path, compute_hash c, f.mtime, f.size⟩

/-- One invocation of the program: `init` or `check` over an enumerated
tree. -/
inductive RunOp where
  | initRun (fs : List FSFile)
  | checkRun (fs : List FSFile)
deriving DecidableEq

/-- Table contents after one invocation of the program on table contents
`db`. -/
def applyRun (db : List FileRecord) : RunOp → List FileRecord
  | RunOp.initRun fs => (init_db fs db).db
  | RunOp.checkRun fs => (check_db fs db).db

/-! Helper lemmas about the hash model. -/

theorem readChunksFuel_join (chunk_size : Nat) (hcs : chunk_size ≠ 0) :
    ∀ (fuel : Nat) (content : List Nat), content.length ≤ fuel →
      (readChunksFuel chunk_size fuel content).flatten = content := by
  intro fuel
  induction fuel with
  | zero =>
    intro content hlen
    have hnil : content = [] := List.eq_nil_of_length_eq_zero (Nat.le_zero.mp hlen)
    subst hnil
    simp [readChunksFuel]
  | succ n ih =>
    intro content hlen
    cases content with
    | nil => simp [readChunksFuel]
    | cons b bs =>
      have hstep : readChunksFuel chunk_size (n + 1) (b :: bs) =
          (b :: bs).take chunk_size ::
            readChunksFuel chunk_size n ((b :: bs).drop chunk_size) := by
        simp [readChunksFuel, hcs]
      have hdrop : ((b :: bs).drop chunk_size).length ≤ n := by
        simp only [List.length_drop, List.length_cons]
        simp only [List.length_cons] at hlen
        omega
      rw [hstep, List.flatten_cons, ih _ hdrop, List.take_append_drop]

theorem foldl_update_eq (chunks : List (List Nat)) :
    ∀ h : HashObj, chunks.foldl HashObj.update h = ⟨h.algo, h.absorbed ++ chunks.flatten⟩ := by
  induction chunks with
  | nil => intro h; simp
  | cons c cs ih =>
    intro h
    rw [List.foldl_cons, ih]
    simp [HashObj.update]

theorem compute_hash_eq_hexdigest (content : List Nat) (algo : String) (chunk_size : Nat)
    (hcs : chunk_size ≠ 0) :
    compute_hash content algo chunk_size = HashObj.hexdigest ⟨algo, content⟩ := by
  unfold compute_hash readChunks
  rw [foldl_update_eq,
    readChunksFuel_join chunk_size hcs content.length content le_rfl]
  rfl

/-! Helper lemmas about the store operations. -/

theorem find?_filter_ne (q p : String) (hpq : p ≠ q) : ∀ db : List FileRecord,
    (db.filter (fun x => x.path != q)).find? (fun x => x.path == p) =
      db.find? (fun x => x.path == p) := by
  intro db
  induction db with
  | nil => rfl
  | cons x xs ih =>
    by_cases hxq : x.path = q
    · have hxp : (x.path == p) = false := by
        rw [hxq]
        simp only [beq_eq_false_iff_ne]
        exact fun h => hpq h.symm
      rw [List.filter_cons_of_neg (by simp [hxq]), ih, List.find?_cons, hxp]
    · rw [List.filter_cons_of_pos (by simp [hxq]), List.find?_cons, List.find?_cons]
      cases hxp : (x.path == p) <;> simp [ih]

theorem lookupRec_upsert (db : List FileRecord) (r : FileRecord) (p : String) :
    lookupRec (upsert db r) p = if p = r.path then some r else lookupRec db p := by
  unfold lookupRec upsert
  rw [List.find?_append]
  by_cases hp : p = r.path
  · have h1 : (db.filter (fun x => x.path != r.path)).find? (fun x => x.path == p) = none := by
      rw [List.find?_eq_none]
      intro x hx
      have hmem := List.mem_filter.mp hx
      have : x.path ≠ r.path := by simpa using hmem.2
      simp [hp, this]
    rw [h1]
    simp [List.find?, hp]
  · rw [find?_filter_ne r.path p hp db]
    have h2 : List.find? (fun x => x.path == p) [r] = none := by
      have hne : (r.path == p) = false := by
        simp only [beq_eq_false_iff_ne]
        exact fun h => hp h.symm
      simp [List.find?, hne]
    rw [h2]
    simp [hp]

theorem lookupRec_deleteRec (db : List FileRecord) (q p : String) :
    lookupRec (deleteRec db q) p = if p = q then none else lookupRec db p := by
  unfold lookupRec deleteRec
  by_cases hp : p = q
  · subst hp
    rw [if_pos rfl, List.find?_eq_none]
    intro x hx
    have hmem := List.mem_filter.mp hx
    have : x.path ≠ p := by simpa using hmem.2
    simp [this]
  · rw [if_neg hp]
    exact find?_filter_ne q p hp db

theorem lookupRec_foldl_deleteRec (ps : List String) : ∀ (db : List FileRecord) (p : String),
    lookupRec (ps.foldl deleteRec db) p = if p ∈ ps then none else lookupRec db p := by
  induction ps with
  | nil => intro db p; simp
  | cons q qs ih =>
    intro db p
    rw [List.foldl_cons, ih]
    by_cases hq : p = q
    · subst hq
      simp [lookupRec_deleteRec]
    · simp [List.mem_cons, hq, lookupRec_deleteRec]

theorem lookupRec_foldl_upsert_of_not_mem (rs : List FileRecord) :
    ∀ (db : List FileRecord) (p : String), (∀ r ∈ rs, r.path ≠ p) →
      lookupRec (rs.foldl upsert db) p = lookupRec db p := by
  induction rs with
  | nil => intro db p _; rfl
  | cons r rs ih =>
    intro db p h
    rw [List.foldl_cons, ih _ _ (fun r' hr' => h r' (List.mem_cons_of_mem _ hr')),
      lookupRec_upsert]
    have hne : p ≠ r.path := fun he => h r (List.mem_cons_self _ _) he.symm
    simp [hne]

theorem lookupRec_foldl_upsert_of_mem (rs : List FileRecord) :
    ∀ (db : List FileRecord) (r : FileRecord),
      (rs.map FileRecord.path).Nodup → r ∈ rs →
      lookupRec (rs.foldl upsert db) r.path = some r := by
  induction rs with
  | nil => intro db r _ hr; cases hr
  | cons x xs ih =>
    intro db r hnd hr
    rw [List.map_cons] at hnd
    obtain ⟨hx, hxs⟩ := List.nodup_cons.mp hnd
    rw [List.foldl_cons]
    rcases List.mem_cons.mp hr with he | hm
    · subst he
      have hnot : ∀ r' ∈ xs, r'.path ≠ r.path := by
        intro r' hr' heq
        exact hx (heq ▸ List.mem_map_of_mem _ hr')
      rw [lookupRec_foldl_upsert_of_not_mem xs _ _ hnot, lookupRec_upsert]
      simp
    · exact ih _ _ hxs hm

theorem lookupRec_eq_none (db : List FileRecord) (p : String) :
    lookupRec db p = none ↔ ∀ r ∈ db, r.path ≠ p := by
  unfold lookupRec
  rw [List.find?_eq_none]
  simp

theorem mem_foldl_deleteRec (ps : List String) : ∀ (db : List FileRecord) (r : FileRecord),
    r ∈ ps.foldl deleteRec db → r ∈ db ∧ r.path ∉ ps := by
  induction ps with
  | nil => intro db r h; exact ⟨h, by simp⟩
  | cons q qs ih =>
    intro db r h
    rw [List.foldl_cons] at h
    obtain ⟨hmem, hnot⟩ := ih _ _ h
    have hdel := List.mem_filter.mp hmem
    refine ⟨hdel.1, ?_⟩
    have hne : r.path ≠ q := by simpa using hdel.2
    simp [List.mem_cons, hne, hnot]

theorem mem_foldl_upsert (rs : List FileRecord) : ∀ (db : List FileRecord) (r : FileRecord),
    r ∈ rs.foldl upsert db → r ∈ db ∨ r ∈ rs := by
  induction rs with
  | nil => intro db r h; exact Or.inl h
  | cons x xs ih =>
    intro db r h
    rw [List.foldl_cons] at h
    rcases ih _ _ h with hm | hm
    · unfold upsert at hm
      rcases List.mem_append.mp hm with hm' | hm'
      · exact Or.inl (List.mem_filter.mp hm').1
      · simp at hm'
        exact Or.inr (by simp [hm'])
    · exact Or.inr (List.mem_cons_of_mem _ hm)

/-! Characterizations of the two run loops as flat list operations. -/

theorem foldl_checkStep_eq (ex : List FileRecord) (fs : List FSFile) :
    ∀ s : CheckState,
      fs.foldl (checkStep ex) s =
        ⟨s.found ++ enumeratedPaths fs,
         s.added ++ fs.filterMap (addedEntry ex),
         s.modified ++ fs.filterMap (modifiedEntry ex),
         (fs.filterMap (upsertRecordOf ex)).foldl upsert s.db⟩ := by
  induction fs with
  | nil => intro s; simp [enumeratedPaths]
  | cons f fs ih =>
    intro s
    rw [List.foldl_cons, ih]
    cases hig : should_ignore_file f.path with
    | true =>
      simp [checkStep, hig, enumeratedPaths, addedEntry, modifiedEntry, upsertRecordOf,
        List.filterMap_cons]
    | false =>
      cases hc : f.content with
      | none =>
        simp [checkStep, hig, hc, enumeratedPaths, addedEntry, modifiedEntry,
          upsertRecordOf, List.filterMap_cons, List.append_assoc]
      | some c =>
        cases hl : lookupHash ex f.path with
        | none =>
          simp [checkStep, hig, hc, hl, enumeratedPaths, addedEntry, modifiedEntry,
            upsertRecordOf, List.filterMap_cons, List.append_assoc]
        | some old =>
          by_cases he : compute_hash c = old
          · simp [checkStep, hig, hc, hl, he, enumeratedPaths, addedEntry, modifiedEntry,
              upsertRecordOf, List.filterMap_cons, List.append_assoc]
          · simp [checkStep, hig, hc, hl, he, enumeratedPaths, addedEntry, modifiedEntry,
              upsertRecordOf, List.filterMap_cons, List.append_assoc]

theorem check_run_eq (fs : List FSFile) (db : List FileRecord) :
    check_run fs db =
      ⟨enumeratedPaths fs,
       fs.filterMap (addedEntry db),
       fs.filterMap (modifiedEntry db),
       (fs.filterMap (upsertRecordOf db)).foldl upsert db⟩ := by
  unfold check_run
  rw [foldl_checkStep_eq]
  simp

theorem check_db_eq (fs : List FSFile) (db : List FileRecord) :
    check_db fs db =
      ⟨fs.filterMap (addedEntry db),
       fs.filterMap (modifiedEntry db),
       (db.map (·.path)).filter (fun p => decide (p ∉ enumeratedPaths fs)),
       ((db.map (·.path)).filter (fun p => decide (p ∉ enumeratedPaths fs))).foldl deleteRec
         ((fs.filterMap (upsertRecordOf db)).foldl upsert db)⟩ := by
  unfold check_db
  rw [check_run_eq]

theorem foldl_initStep_eq (fs : List FSFile) :
    ∀ s : InitState,
      fs.foldl initStep s =
        ⟨(fs.filterMap initRecordOf).foldl upsert s.db,
         s.processed + (fs.filterMap initRecordOf).length,
         s.commits +
           ((s.processed + (fs.filterMap initRecordOf).length) / 10 - s.processed / 10)⟩ := by
  induction fs with
  | nil => intro s; simp
  | cons f fs ih =>
    intro s
    rw [List.foldl_cons, ih]
    cases hig : should_ignore_file f.path with
    | true => simp [initStep, hig, initRecordOf, List.filterMap_cons]
    | false =>
      cases hc : f.content with
      | none => simp [initStep, hig, hc, initRecordOf, List.filterMap_cons]
      | some c =>
        have hrec : initRecordOf f = some ⟨f.path, compute_hash c, f.mtime, f.size⟩ := by
          simp [initRecordOf, hig, hc]
        rw [List.filterMap_cons_some hrec]
        have hdb : (initStep s f).db =
            upsert s.db ⟨f.path, compute_hash c, f.mtime, f.size⟩ := by
          simp only [initStep, hig, Bool.false_eq_true, if_false, hc]
          split <;> rfl
        have hproc : (initStep s f).processed = s.processed + 1 := by
          simp only [initStep, hig, Bool.false_eq_true, if_false, hc]
          split <;> rfl
        have hcom : (initStep s f).commits =
            s.commits + if (s.processed + 1) % 10 = 0 then 1 else 0 := by
          simp only [initStep, hig, Bool.false_eq_true, if_false, hc]
          by_cases hmod : (s.processed + 1) % 10 = 0 <;> simp [hmod]
        rw [hdb, hproc, hcom]
        simp only [List.foldl_cons, List.length_cons, InitState.mk.injEq]
        refine ⟨trivial, by omega, ?_⟩
        by_cases hmod : (s.processed + 1) % 10 = 0
        · rw [if_pos hmod]
          omega
        · rw [if_neg hmod]
          omega

theorem init_db_eq (fs : List FSFile) (db : List FileRecord) :
    init_db fs db =
      ⟨(fs.filterMap initRecordOf).foldl upsert db,
       (fs.filterMap initRecordOf).length,
       (fs.filterMap initRecordOf).length / 10 + 1⟩ := by
  unfold init_db
  rw [foldl_initStep_eq]
  simp

/-! Membership lemmas for the derived per-run lists. -/

theorem mem_enumeratedPaths {fs : List FSFile} {p : String} :
    p ∈ enumeratedPaths fs ↔
      ∃ f, f ∈ fs ∧ f.path = p ∧ should_ignore_file f.path = false := by
  unfold enumeratedPaths
  rw [List.mem_filterMap]
  constructor
  · rintro ⟨f, hf, hsome⟩
    cases hig : should_ignore_file f.path
    · rw [hig] at hsome
      simp only [Bool.false_eq_true, if_false, Option.some.injEq] at hsome
      exact ⟨f, hf, hsome, hig⟩
    · rw [hig] at hsome
      simp at hsome
  · rintro ⟨f, hf, rfl, hig⟩
    exact ⟨f, hf, by simp [hig]⟩

theorem mem_processedPaths {fs : List FSFile} {p : String} :
    p ∈ processedPaths fs ↔
      ∃ f, f ∈ fs ∧ f.path = p ∧ should_ignore_file f.path = false ∧
        ∃ c, f.content = some c := by
  unfold processedPaths
  rw [List.mem_filterMap]
  constructor
  · rintro ⟨f, hf, hsome⟩
    cases hig : should_ignore_file f.path
    · rw [hig] at hsome
      simp only [Bool.false_eq_true, if_false] at hsome
      cases hc : f.content with
      | none => rw [hc] at hsome; cases hsome
      | some c =>
        rw [hc] at hsome
        simp only [Option.some.injEq] at hsome
        exact ⟨f, hf, hsome, hig, c, hc⟩
    · rw [hig] at hsome
      simp at hsome
  · rintro ⟨f, hf, rfl, hig, c, hc⟩
    exact ⟨f, hf, by simp [hig, hc]⟩

theorem addedEntry_some {ex : List FileRecord} {f : FSFile} {p : String}
    (h : addedEntry ex f = some p) :
    p = f.path ∧ should_ignore_file f.path = false ∧ (∃ c, f.content = some c) ∧
      lookupHash ex f.path = none := by
  unfold addedEntry at h
  cases hig : should_ignore_file f.path
  · rw [hig] at h
    simp only [Bool.false_eq_true, if_false] at h
    cases hc : f.content with
    | none => rw [hc] at h; cases hl : lookupHash ex f.path <;> rw [hl] at h <;> cases h
    | some c =>
      rw [hc] at h
      cases hl : lookupHash ex f.path with
      | none =>
        rw [hl] at h
        simp only [Option.some.injEq] at h
        exact ⟨h.symm, rfl, ⟨c, rfl⟩, rfl⟩
      | some old => rw [hl] at h; cases h
  · rw [hig] at h
    simp at h

theorem modifiedEntry_some {ex : List FileRecord} {f : FSFile} {p : String}
    (h : modifiedEntry ex f = some p) :
    p = f.path ∧ should_ignore_file f.path = false ∧
      ∃ c old, f.content = some c ∧ lookupHash ex f.path = some old ∧
        compute_hash c ≠ old := by
  unfold modifiedEntry at h
  cases hig : should_ignore_file f.path
  · rw [hig] at h
    simp only [Bool.false_eq_true, if_false] at h
    cases hc : f.content with
    | none => rw [hc] at h; cases hl : lookupHash ex f.path <;> rw [hl] at h <;> cases h
    | some c =>
      rw [hc] at h
      cases hl : lookupHash ex f.path with
      | none => rw [hl] at h; cases h
      | some old =>
        rw [hl] at h
        have h' : (if compute_hash c ≠ old then some f.path else none) = some p := h
        by_cases he : compute_hash c = old
        · rw [if_neg (by simp [he])] at h'
          cases h'
        · rw [if_pos he] at h'
          simp only [Option.some.injEq] at h'
          exact ⟨h'.symm, rfl, c, old, rfl, rfl, he⟩
  · rw [hig] at h
    simp at h

theorem upsertRecordOf_some {ex : List FileRecord} {f : FSFile} {r : FileRecord}
    (h : upsertRecordOf ex f = some r) :
    r.path = f.path ∧ should_ignore_file f.path = false ∧
      ∃ c, f.content = some c ∧ r = ⟨f.path, compute_hash c, f.mtime, f.size⟩ := by
  unfold upsertRecordOf at h
  cases hig : should_ignore_file f.path
  · rw [hig] at h
    simp only [Bool.false_eq_true, if_false] at h
    cases hc : f.content with
    | none => rw [hc] at h; cases h
    | some c =>
      rw [hc] at h
      cases hl : lookupHash ex f.path with
      | none =>
        rw [hl] at h
        simp only [Option.some.injEq] at h
        exact ⟨by rw [← h], rfl, c, rfl, h.symm⟩
      | some old =>
        rw [hl] at h
        have h' : (if compute_hash c ≠ old then
            some (⟨f.path, compute_hash c, f.mtime, f.size⟩ : FileRecord) else none) = some r := h
        by_cases he : compute_hash c = old
        · rw [if_neg (by simp [he])] at h'
          cases h'
        · rw [if_pos he] at h'
          simp only [Option.some.injEq] at h'
          exact ⟨by rw [← h'], rfl, c, rfl, h'.symm⟩
  · rw [hig] at h
    simp at h

theorem initRecordOf_some {f : FSFile} {r : FileRecord}
    (h : initRecordOf f = some r) :
    r.path = f.path ∧ should_ignore_file f.path = false ∧
      ∃ c, f.content = some c ∧ r = ⟨f.path, compute_hash c, f.mtime, f.size⟩ := by
  unfold initRecordOf at h
  cases hig : should_ignore_file f.path
  · rw [hig] at h
    simp only [Bool.false_eq_true, if_false] at h
    cases hc : f.content with
    | none => rw [hc] at h; cases h
    | some c =>
      rw [hc] at h
      simp only [Option.some.injEq] at h
      exact ⟨by rw [← h], rfl, c, rfl, h.symm⟩
  · rw [hig] at h
    simp at h

theorem filterMap_record_path_sublist (g : FSFile → Option FileRecord)
    (hg : ∀ f r, g f = some r → r.path = f.path) (fs : List FSFile) :
    ((fs.filterMap g).map FileRecord.path).Sublist (fs.map FSFile.path) := by
  induction fs with
  | nil => simp
  | cons f fs ih =>
    cases hgf : g f with
    | none =>
      rw [List.filterMap_cons_none hgf, List.map_cons]
      exact ih.cons _
    | some r =>
      rw [List.filterMap_cons_some hgf, List.map_cons, List.map_cons, hg f r hgf]
      exact ih.cons₂ _

/-! Semantic lemmas about the final table contents of a run. -/

theorem check_db_db_expand (fs : List FSFile) (db : List FileRecord) :
    (check_db fs db).db =
      ((db.map (·.path)).filter (fun p => decide (p ∉ enumeratedPaths fs))).foldl deleteRec
        ((fs.filterMap (upsertRecordOf db)).foldl upsert db) := by
  rw [check_db_eq]

theorem check_db_not_removed_of_enumerated (fs : List FSFile) (db : List FileRecord)
    {p : String} (henum : p ∈ enumeratedPaths fs) :
    p ∉ (db.map (·.path)).filter (fun p => decide (p ∉ enumeratedPaths fs)) := by
  intro hcontra
  have hm := List.mem_filter.mp hcontra
  rw [decide_eq_true_eq] at hm
  exact hm.2 henum

theorem check_db_lookup_of_upsert (fs : List FSFile) (db : List FileRecord)
    (hnd : (fs.map FSFile.path).Nodup) (f : FSFile) (r : FileRecord)
    (hf : f ∈ fs) (hup : upsertRecordOf db f = some r) :
    lookupRec (check_db fs db).db f.path = some r := by
  obtain ⟨hrp, hig, c, hc, hr⟩ := upsertRecordOf_some hup
  have hmem : r ∈ fs.filterMap (upsertRecordOf db) := List.mem_filterMap.mpr ⟨f, hf, hup⟩
  have hndr : ((fs.filterMap (upsertRecordOf db)).map FileRecord.path).Nodup :=
    (filterMap_record_path_sublist _ (fun f r h => (upsertRecordOf_some h).1) fs).nodup hnd
  have henum : f.path ∈ enumeratedPaths fs := mem_enumeratedPaths.mpr ⟨f, hf, rfl, hig⟩
  rw [check_db_db_expand, lookupRec_foldl_deleteRec,
    if_neg (check_db_not_removed_of_enumerated fs db henum), ← hrp,
    lookupRec_foldl_upsert_of_mem _ _ _ hndr hmem]

theorem check_db_lookup_untouched (fs : List FSFile) (db : List FileRecord)
    (p : String) (henum : p ∈ enumeratedPaths fs)
    (hnoup : ∀ r ∈ fs.filterMap (upsertRecordOf db), r.path ≠ p) :
    lookupRec (check_db fs db).db p = lookupRec db p := by
  rw [check_db_db_expand, lookupRec_foldl_deleteRec,
    if_neg (check_db_not_removed_of_enumerated fs db henum),
    lookupRec_foldl_upsert_of_not_mem _ _ _ hnoup]

theorem no_upsert_record_for (fs : List FSFile) (db : List FileRecord)
    (hnd : (fs.map FSFile.path).Nodup) (f : FSFile) (hf : f ∈ fs)
    (hfn : upsertRecordOf db f = none) :
    ∀ r ∈ fs.filterMap (upsertRecordOf db), r.path ≠ f.path := by
  intro r hr heq
  obtain ⟨g, hg, hgr⟩ := List.mem_filterMap.mp hr
  have hpath : r.path = g.path := (upsertRecordOf_some hgr).1
  have hgf : g = f :=
    List.inj_on_of_nodup_map hnd hg hf (by rw [← hpath, heq])
  rw [hgf] at hgr
  rw [hfn] at hgr
  cases hgr

theorem check_db_lookupHash_processed (fs : List FSFile) (db : List FileRecord)
    (hnd : (fs.map FSFile.path).Nodup) (f : FSFile) (c : List Nat)
    (hf : f ∈ fs) (hig : should_ignore_file f.path = false) (hc : f.content = some c) :
    lookupHash (check_db fs db).db f.path = some (compute_hash c) := by
  cases hl : lookupHash db f.path with
  | none =>
    have hup : upsertRecordOf db f = some ⟨f.path, compute_hash c, f.mtime, f.size⟩ := by
      simp [upsertRecordOf, hig, hc, hl]
    rw [lookupHash, check_db_lookup_of_upsert fs db hnd f _ hf hup]
    rfl
  | some old =>
    by_cases he : compute_hash c = old
    · have hfn : upsertRecordOf db f = none := by
        simp [upsertRecordOf, hig, hc, hl, he]
      have henum : f.path ∈ enumeratedPaths fs := mem_enumeratedPaths.mpr ⟨f, hf, rfl, hig⟩
      rw [lookupHash, check_db_lookup_untouched fs db f.path henum
        (no_upsert_record_for fs db hnd f hf hfn)]
      rw [← lookupHash, hl, he]
    · have hup : upsertRecordOf db f = some ⟨f.path, compute_hash c, f.mtime, f.size⟩ := by
        simp [upsertRecordOf, hig, hc, hl, he]
      rw [lookupHash, check_db_lookup_of_upsert fs db hnd f _ hf hup]
      rfl

theorem check_db_mem_path (fs : List FSFile) (db : List FileRecord)
    (r : FileRecord) (hr : r ∈ (check_db fs db).db) :
    r.path ∈ enumeratedPaths fs := by
  rw [check_db_db_expand] at hr
  obtain ⟨hmem, hnotrem⟩ := mem_foldl_deleteRec _ _ _ hr
  rcases mem_foldl_upsert _ _ _ hmem with hdb | hup
  · by_contra hne
    exact hnotrem (List.mem_filter.mpr
      ⟨List.mem_map_of_mem _ hdb, by rw [decide_eq_true_eq]; exact hne⟩)
  · obtain ⟨g, hg, hgr⟩ := List.mem_filterMap.mp hup
    obtain ⟨hpath, hig, _, _, _⟩ := upsertRecordOf_some hgr
    rw [hpath]
    exact mem_enumeratedPaths.mpr ⟨g, hg, rfl, hig⟩

theorem init_db_db_expand (fs : List FSFile) (db : List FileRecord) :
    (init_db fs db).db = (fs.filterMap initRecordOf).foldl upsert db := by
  rw [init_db_eq]

theorem init_db_lookup_of_record (fs : List FSFile) (db : List FileRecord)
    (hnd : (fs.map FSFile.path).Nodup) (f : FSFile) (r : FileRecord)
    (hf : f ∈ fs) (hrec : initRecordOf f = some r) :
    lookupRec (init_db fs db).db f.path = some r := by
  obtain ⟨hrp, hig, c, hc, hr⟩ := initRecordOf_some hrec
  have hmem : r ∈ fs.filterMap initRecordOf := List.mem_filterMap.mpr ⟨f, hf, hrec⟩
  have hndr : ((fs.filterMap initRecordOf).map FileRecord.path).Nodup :=
    (filterMap_record_path_sublist _ (fun f r h => (initRecordOf_some h).1) fs).nodup hnd
  rw [init_db_db_expand, ← hrp, lookupRec_foldl_upsert_of_mem _ _ _ hndr hmem]

theorem init_db_lookup_untouched (fs : List FSFile) (db : List FileRecord)
    (p : String) (hnoup : ∀ r ∈ fs.filterMap initRecordOf, r.path ≠ p) :
    lookupRec (init_db fs db).db p = lookupRec db p := by
  rw [init_db_db_expand, lookupRec_foldl_upsert_of_not_mem _ _ _ hnoup]

theorem initRecord_path_mem_processed (fs : List FSFile) (r : FileRecord)
    (hr : r ∈ fs.filterMap initRecordOf) : r.path ∈ processedPaths fs := by
  obtain ⟨g, hg, hgr⟩ := List.mem_filterMap.mp hr
  obtain ⟨hpath, hig, c, hc, _⟩ := initRecordOf_some hgr
  rw [hpath]
  exact mem_processedPaths.mpr ⟨g, hg, rfl, hig, c, hc⟩

theorem init_db_mem_path (fs : List FSFile) (db : List FileRecord)
    (r : FileRecord) (hr : r ∈ (init_db fs db).db) :
    r ∈ db ∨ r.path ∈ processedPaths fs := by
  rw [init_db_db_expand] at hr
  rcases mem_foldl_upsert _ _ _ hr with hdb | hup
  · exact Or.inl hdb
  · exact Or.inr (initRecord_path_mem_processed fs r hup)

/-! Projection corollaries and small subset lemmas. -/

theorem check_run_found_eq (fs : List FSFile) (db : List FileRecord) :
    (check_run fs db).found = enumeratedPaths fs := by
  rw [check_run_eq]

theorem check_db_added_eq (fs : List FSFile) (db : List FileRecord) :
    (check_db fs db).added = fs.filterMap (addedEntry db) := by
  rw [check_db_eq]

theorem check_db_modified_eq (fs : List FSFile) (db : List FileRecord) :
    (check_db fs db).modified = fs.filterMap (modifiedEntry db) := by
  rw [check_db_eq]

theorem check_db_removed_eq (fs : List FSFile) (db : List FileRecord) :
    (check_db fs db).removed =
      (db.map (·.path)).filter (fun p => decide (p ∉ enumeratedPaths fs)) := by
  rw [check_db_eq]

theorem processedPaths_subset_enumerated {fs : List FSFile} {p : String}
    (hp : p ∈ processedPaths fs) : p ∈ enumeratedPaths fs := by
  obtain ⟨f, hf, hpath, hig, _, _⟩ := mem_processedPaths.mp hp
  exact mem_enumeratedPaths.mpr ⟨f, hf, hpath, hig⟩

theorem initRecord_length_eq (fs : List FSFile) :
    (fs.filterMap initRecordOf).length = (processedPaths fs).length := by
  induction fs with
  | nil => rfl
  | cons f fs ih =>
    cases hig : should_ignore_file f.path
    · cases hc : f.content with
      | none =>
        simp only [processedPaths, initRecordOf, List.filterMap_cons, hig, hc,
          Bool.false_eq_true, if_false] at *
        exact ih
      | some c =>
        simp only [processedPaths, initRecordOf, List.filterMap_cons, hig, hc,
          Bool.false_eq_true, if_false, List.length_cons] at *
        omega
    · simp only [processedPaths, initRecordOf, List.filterMap_cons, hig, if_true] at *
      exact ih

/-! Claim theorems. -/

/-- Claim C9: for every byte content, every algorithm and all positive chunk
sizes, `compute_hash` returns the hex-encoded digest of the full byte content
of the file — equal to absorbing the entire content into the hash object in
one pass, independently of how the content is split into chunks — and
hashing the same content with the same parameters always yields the same
fingerprint (the result is a function of the content alone). -/
theorem claimC9_compute_hash_full_content (content : List Nat) (algo : String)
    (n m : Nat) (hn : 0 < n) (hm : 0 < m) :
    compute_hash content algo n = ((hashlib_new algo).update content).hexdigest ∧
    compute_hash content algo n = compute_hash content algo m := by
  have h1 := compute_hash_eq_hexdigest content algo n (Nat.pos_iff_ne_zero.mp hn)
  have h2 := compute_hash_eq_hexdigest content algo m (Nat.pos_iff_ne_zero.mp hm)
  have hup : (hashlib_new algo).update content = ⟨algo, content⟩ := by
    simp [hashlib_new, HashObj.update]
  exact ⟨by rw [h1, hup], by rw [h1, h2]⟩

/-- Witness for C9 at content [1, 2, 3] with chunk sizes 2 and 7. -/
theorem claimC9_witness :
    compute_hash [1, 2, 3] "sha256" 2 =
      ((hashlib_new "sha256").update [1, 2, 3]).hexdigest ∧
    compute_hash [1, 2, 3] "sha256" 2 = compute_hash [1, 2, 3] "sha256" 7 :=
  claimC9_compute_hash_full_content [1, 2, 3] "sha256" 2 7 (by decide) (by decide)

/-- Claim C10: running `check` against a store location that holds no prior
snapshot does not fail: `connect_db` creates the schema so the loaded
baseline is the empty table, the added paths are exactly the non-ignored
enumerated files whose digest succeeds, and modified and removed are both
empty. -/
theorem claimC10_check_fresh_store (fs : List FSFile) :
    connect_db none = [] ∧
    (check_db fs (connect_db none)).added = processedPaths fs ∧
    (check_db fs (connect_db none)).modified = [] ∧
    (check_db fs (connect_db none)).removed = [] := by
  refine ⟨rfl, ?_, ?_, ?_⟩
  · have hconn : connect_db none = [] := rfl
    rw [hconn, check_db_added_eq]
    unfold processedPaths
    apply List.filterMap_congr
    intro f _
    cases hig : should_ignore_file f.path
    · cases hc : f.content with
      | none => simp [addedEntry, hig, hc]
      | some c => simp [addedEntry, hig, hc, lookupHash, lookupRec]
    · simp [addedEntry, hig]
  · have hconn : connect_db none = [] := rfl
    rw [hconn, check_db_modified_eq, List.filterMap_eq_nil_iff]
    intro f _
    cases hig : should_ignore_file f.path
    · cases hc : f.content with
      | none => simp [modifiedEntry, hig, hc]
      | some c => simp [modifiedEntry, hig, hc, lookupHash, lookupRec]
    · simp [modifiedEntry, hig]
  · have hconn : connect_db none = [] := rfl
    rw [hconn, check_db_removed_eq]
    simp

/-- Claim C5: during a check run on a tree without duplicate paths, an
enumerated non-ignored path whose digest succeeds is classified as follows:
absent from the loaded snapshot, it is reported added and its new record is
stored; present with a differing digest, it is reported modified and its
record is overwritten with the new fingerprint, mtime and size; present with
a matching digest, it is reported neither added nor modified nor removed and
its stored record is not mutated in any field. -/
theorem claimC5_classification (fs : List FSFile) (db : List FileRecord)
    (f : FSFile) (c : List Nat) (hf : f ∈ fs)
    (hig : should_ignore_file f.path = false) (hc : f.content = some c)
    (hnd : (fs.map FSFile.path).Nodup) :
    (lookupHash db f.path = none →
      f.path ∈ (check_db fs db).added ∧ f.path ∉ (check_db fs db).removed ∧
      lookupRec (check_db fs db).db f.path =
        some ⟨f.path, compute_hash c, f.mtime, f.size⟩) ∧
    (∀ old, lookupHash db f.path = some old → compute_hash c ≠ old →
      f.path ∈ (check_db fs db).modified ∧ f.path ∉ (check_db fs db).removed ∧
      lookupRec (check_db fs db).db f.path =
        some ⟨f.path, compute_hash c, f.mtime, f.size⟩) ∧
    (∀ old, lookupHash db f.path = some old → compute_hash c = old →
      f.path ∉ (check_db fs db).added ∧ f.path ∉ (check_db fs db).modified ∧
      f.path ∉ (check_db fs db).removed ∧
      lookupRec (check_db fs db).db f.path = lookupRec db f.path) := by
  have henum : f.path ∈ enumeratedPaths fs := mem_enumeratedPaths.mpr ⟨f, hf, rfl, hig⟩
  have hnotrem : f.path ∉ (check_db fs db).removed := by
    rw [check_db_removed_eq]
    exact check_db_not_removed_of_enumerated fs db henum
  refine ⟨?_, ?_, ?_⟩
  · intro hl
    have hup : upsertRecordOf db f = some ⟨f.path, compute_hash c, f.mtime, f.size⟩ := by
      simp [upsertRecordOf, hig, hc, hl]
    refine ⟨?_, hnotrem, check_db_lookup_of_upsert fs db hnd f _ hf hup⟩
    rw [check_db_added_eq]
    exact List.mem_filterMap.mpr ⟨f, hf, by simp [addedEntry, hig, hc, hl]⟩
  · intro old hl he
    have hup : upsertRecordOf db f = some ⟨f.path, compute_hash c, f.mtime, f.size⟩ := by
      simp [upsertRecordOf, hig, hc, hl, he]
    refine ⟨?_, hnotrem, check_db_lookup_of_upsert fs db hnd f _ hf hup⟩
    rw [check_db_modified_eq]
    exact List.mem_filterMap.mpr ⟨f, hf, by simp [modifiedEntry, hig, hc, hl, he]⟩
  · intro old hl he
    have hfn : upsertRecordOf db f = none := by
      simp [upsertRecordOf, hig, hc, hl, he]
    refine ⟨?_, ?_, hnotrem,
      check_db_lookup_untouched fs db f.path henum (no_upsert_record_for fs db hnd f hf hfn)⟩
    · intro hmem
      rw [check_db_added_eq] at hmem
      obtain ⟨g, hg, hge⟩ := List.mem_filterMap.mp hmem
      obtain ⟨hpath, higg, ⟨c', hc'⟩, hlg⟩ := addedEntry_some hge
      have hgf : g = f := List.inj_on_of_nodup_map hnd hg hf hpath.symm
      rw [hgf] at hlg
      rw [hl] at hlg
      cases hlg
    · intro hmem
      rw [check_db_modified_eq] at hmem
      obtain ⟨g, hg, hge⟩ := List.mem_filterMap.mp hmem
      obtain ⟨hpath, higg, c', old', hc', hlg, hneg⟩ := modifiedEntry_some hge
      have hgf : g = f := List.inj_on_of_nodup_map hnd hg hf hpath.symm
      rw [hgf] at hc' hlg
      rw [hc] at hc'
      rw [hl] at hlg
      cases hc'
      cases hlg
      exact hneg he
  
/-- Witness for C5: a single fresh file on an empty store is classified as
added and its record stored. -/
theorem claimC5_witness :
    "/w/a" ∈ (check_db [⟨"/w/a", some [7], 1, 1⟩] []).added ∧
    "/w/a" ∉ (check_db [⟨"/w/a", some [7], 1, 1⟩] []).removed ∧
    lookupRec (check_db [⟨"/w/a", some [7], 1, 1⟩] []).db "/w/a" =
      some ⟨"/w/a", compute_hash [7], 1, 1⟩ :=
  (claimC5_classification [⟨"/w/a", some [7], 1, 1⟩] [] ⟨"/w/a", some [7], 1, 1⟩ [7]
    (by decide) (by decide) rfl (by decide)).1 rfl

/-- Claim C7: running `check` twice in succession over the same tree (without
duplicate paths) and the same store, with no filesystem change in between,
yields a report whose added, modified and removed lists are all empty on the
second run. -/
theorem claimC7_check_idempotent (fs : List FSFile) (db : List FileRecord)
    (hnd : (fs.map FSFile.path).Nodup) :
    (check_db fs (check_db fs db).db).added = [] ∧
    (check_db fs (check_db fs db).db).modified = [] ∧
    (check_db fs (check_db fs db).db).removed = [] := by
  refine ⟨?_, ?_, ?_⟩
  · rw [check_db_added_eq, List.filterMap_eq_nil_iff]
    intro f hf
    cases hig : should_ignore_file f.path
    · cases hc : f.content with
      | none => simp [addedEntry, hig, hc]
      | some c =>
        have hl := check_db_lookupHash_processed fs db hnd f c hf hig hc
        simp [addedEntry, hig, hc, hl]
    · simp [addedEntry, hig]
  · rw [check_db_modified_eq, List.filterMap_eq_nil_iff]
    intro f hf
    cases hig : should_ignore_file f.path
    · cases hc : f.content with
      | none => simp [modifiedEntry, hig, hc]
      | some c =>
        have hl := check_db_lookupHash_processed fs db hnd f c hf hig hc
        simp [modifiedEntry, hig, hc, hl]
    · simp [modifiedEntry, hig]
  · rw [check_db_removed_eq, List.filter_eq_nil_iff]
    intro p hp
    obtain ⟨r, hr, hrp⟩ := List.mem_map.mp hp
    have henum := check_db_mem_path fs db r hr
    rw [← hrp]
    simp [henum]

/-- Witness for C7 with one readable file over an empty store. -/
theorem claimC7_witness :
    (check_db [⟨"/r/a", some [1, 2], 3, 2⟩]
        (check_db [⟨"/r/a", some [1, 2], 3, 2⟩] []).db).added = [] ∧
    (check_db [⟨"/r/a", some [1, 2], 3, 2⟩]
        (check_db [⟨"/r/a", some [1, 2], 3, 2⟩] []).db).modified = [] ∧
    (check_db [⟨"/r/a", some [1, 2], 3, 2⟩]
        (check_db [⟨"/r/a", some [1, 2], 3, 2⟩] []).db).removed = [] :=
  claimC7_check_idempotent [⟨"/r/a", some [1, 2], 3, 2⟩] [] (by decide)

/-- Claim C8: a path accepted by the ignore predicate is never hashed (it is
excluded from the enumerated non-ignored paths of every tree), never appears
in added, modified or removed, and — when the store was only ever produced by
these operations, so that the path is not already a stored key — it is never
a key of the snapshot after any `init` or `check` run, in particular after
any sequence of runs starting from the empty store, even if the path exists
on disk. -/
theorem claimC8_ignored_excluded (p : String) (hp : should_ignore_file p = true) :
    (∀ fs : List FSFile, p ∉ enumeratedPaths fs) ∧
    (∀ (fs : List FSFile) (db : List FileRecord),
      p ∉ (check_db fs db).added ∧
      p ∉ (check_db fs db).modified ∧
      (lookupRec db p = none → p ∉ (check_db fs db).removed) ∧
      (lookupRec db p = none → lookupRec (check_db fs db).db p = none) ∧
      (lookupRec db p = none → lookupRec (init_db fs db).db p = none)) ∧
    (∀ runs : List RunOp, lookupRec (runs.foldl applyRun []) p = none) := by
  have ha : ∀ fs : List FSFile, p ∉ enumeratedPaths fs := by
    intro fs hmem
    obtain ⟨f, _, hpath, hig⟩ := mem_enumeratedPaths.mp hmem
    rw [hpath] at hig
    rw [hp] at hig
    cases hig
  have hcheck : ∀ (fs : List FSFile) (db : List FileRecord),
      lookupRec db p = none → lookupRec (check_db fs db).db p = none := by
    intro fs db _
    rw [lookupRec_eq_none]
    intro r hr heq
    exact ha fs (heq ▸ check_db_mem_path fs db r hr)
  have hinit : ∀ (fs : List FSFile) (db : List FileRecord),
      lookupRec db p = none → lookupRec (init_db fs db).db p = none := by
    intro fs db hdb
    rw [lookupRec_eq_none]
    intro r hr heq
    rcases init_db_mem_path fs db r hr with hmem | hproc
    · exact (lookupRec_eq_none db p).mp hdb r hmem heq
    · exact ha fs (processedPaths_subset_enumerated (heq ▸ hproc))
  refine ⟨ha, ?_, ?_⟩
  · intro fs db
    refine ⟨?_, ?_, ?_, hcheck fs db, hinit fs db⟩
    · intro hmem
      rw [check_db_added_eq] at hmem
      obtain ⟨g, hg, hge⟩ := List.mem_filterMap.mp hmem
      obtain ⟨hpath, hig, _, _⟩ := addedEntry_some hge
      rw [← hpath] at hig
      rw [hp] at hig
      cases hig
    · intro hmem
      rw [check_db_modified_eq] at hmem
      obtain ⟨g, hg, hge⟩ := List.mem_filterMap.mp hmem
      obtain ⟨hpath, hig, _⟩ := modifiedEntry_some hge
      rw [← hpath] at hig
      rw [hp] at hig
      cases hig
    · intro hdb hmem
      rw [check_db_removed_eq] at hmem
      have hm := (List.mem_filter.mp hmem).1
      obtain ⟨r, hr, hrp⟩ := List.mem_map.mp hm
      exact (lookupRec_eq_none db p).mp hdb r hr hrp
  · intro runs
    have hstep : ∀ (runs : List RunOp) (db : List FileRecord), lookupRec db p = none →
        lookupRec (runs.foldl applyRun db) p = none := by
      intro runs
      induction runs with
      | nil => intro db hdb; exact hdb
      | cons op ops ih =>
        intro db hdb
        rw [List.foldl_cons]
        apply ih
        cases op with
        | initRun fs => exact hinit fs db hdb
        | checkRun fs => exact hcheck fs db hdb
    exact hstep runs [] rfl

/-- Witness for C8 at the ignored path /V/.DS_Store, present on disk. -/
theorem claimC8_witness :
    "/V/.DS_Store" ∉ enumeratedPaths [⟨"/V/.DS_Store", some [1], 0, 1⟩] ∧
    lookupRec
      ([RunOp.initRun [⟨"/V/.DS_Store", some [1], 0, 1⟩],
        RunOp.checkRun [⟨"/V/.DS_Store", some [1], 0, 1⟩]].foldl applyRun [])
      "/V/.DS_Store" = none := by
  have h := claimC8_ignored_excluded "/V/.DS_Store" (by decide)
  exact ⟨h.1 _, h.2.2 _⟩

/-- Counterexample to claim C1: `check_db` adds a path to the found set
before hashing it, so a tracked path whose digest fails on this run is still
counted as found; it is not classified as removed and its record is not
deleted, although the claim says it would be. -/
theorem claimC1_counterexample :
    "/r/a" ∈ (check_run [⟨"/r/a", none, 0, 0⟩] [⟨"/r/a", "h", 0, 0⟩]).found ∧
    (check_db [⟨"/r/a", none, 0, 0⟩] [⟨"/r/a", "h", 0, 0⟩]).removed = [] ∧
    (check_db [⟨"/r/a", none, 0, 0⟩] [⟨"/r/a", "h", 0, 0⟩]).db =
      [⟨"/r/a", "h", 0, 0⟩] := by
  decide

/-- Claim C1 (amended): during a check run, every enumerated non-ignored path
joins the found set before digesting, so a path whose digest fails is still
counted as found; it is skipped only for the added/modified classification
(on a tree without duplicate paths), and consequently a previously tracked
path whose digest fails is not classified as removed and its record stays in
the snapshot unchanged. -/
theorem claimC1_amended (fs : List FSFile) (db : List FileRecord)
    (f : FSFile) (hf : f ∈ fs) (hig : should_ignore_file f.path = false)
    (herr : f.content = none) (hnd : (fs.map FSFile.path).Nodup) :
    f.path ∈ (check_run fs db).found ∧
    f.path ∉ (check_db fs db).added ∧
    f.path ∉ (check_db fs db).modified ∧
    f.path ∉ (check_db fs db).removed ∧
    lookupRec (check_db fs db).db f.path = lookupRec db f.path := by
  have henum : f.path ∈ enumeratedPaths fs := mem_enumeratedPaths.mpr ⟨f, hf, rfl, hig⟩
  have hfn : upsertRecordOf db f = none := by
    simp [upsertRecordOf, hig, herr]
  refine ⟨?_, ?_, ?_, ?_, ?_⟩
  · rw [check_run_found_eq]
    exact henum
  · intro hmem
    rw [check_db_added_eq] at hmem
    obtain ⟨g, hg, hge⟩ := List.mem_filterMap.mp hmem
    obtain ⟨hpath, higg, ⟨c', hc'⟩, _⟩ := addedEntry_some hge
    have hgf : g = f := List.inj_on_of_nodup_map hnd hg hf hpath.symm
    rw [hgf] at hc'
    rw [herr] at hc'
    cases hc'
  · intro hmem
    rw [check_db_modified_eq] at hmem
    obtain ⟨g, hg, hge⟩ := List.mem_filterMap.mp hmem
    obtain ⟨hpath, higg, c', old', hc', _, _⟩ := modifiedEntry_some hge
    have hgf : g = f := List.inj_on_of_nodup_map hnd hg hf hpath.symm
    rw [hgf] at hc'
    rw [herr] at hc'
    cases hc'
  · rw [check_db_removed_eq]
    exact check_db_not_removed_of_enumerated fs db henum
  · exact check_db_lookup_untouched fs db f.path henum
      (no_upsert_record_for fs db hnd f hf hfn)

/-- Witness for the amended C1: one tracked file whose read fails. -/
theorem claimC1_witness :
    "/r/c" ∈ (check_run [⟨"/r/c", none, 0, 0⟩] [⟨"/r/c", "h0", 5, 5⟩]).found ∧
    "/r/c" ∉ (check_db [⟨"/r/c", none, 0, 0⟩] [⟨"/r/c", "h0", 5, 5⟩]).added ∧
    "/r/c" ∉ (check_db [⟨"/r/c", none, 0, 0⟩] [⟨"/r/c", "h0", 5, 5⟩]).modified ∧
    "/r/c" ∉ (check_db [⟨"/r/c", none, 0, 0⟩] [⟨"/r/c", "h0", 5, 5⟩]).removed ∧
    lookupRec (check_db [⟨"/r/c", none, 0, 0⟩] [⟨"/r/c", "h0", 5, 5⟩]).db "/r/c" =
      lookupRec [⟨"/r/c", "h0", 5, 5⟩] "/r/c" :=
  claimC1_amended [⟨"/r/c", none, 0, 0⟩] [⟨"/r/c", "h0", 5, 5⟩]
    ⟨"/r/c", none, 0, 0⟩ (by decide) (by decide) rfl (by decide)

/-- Counterexample to claim C2: `init_db` never clears the table, so a record
present in the store before the run — for a path that is not under the root
(here the enumerated tree is empty, so nothing is hashed) — is still in the
snapshot after initialization, although the claim says the snapshot then
contains no other records than those hashed this run. -/
theorem claimC2_counterexample :
    (init_db [] [⟨"/old/x", "h0", 1, 1⟩]).db = [⟨"/old/x", "h0", 1, 1⟩] ∧
    processedPaths ([] : List FSFile) = [] := by
  decide

/-- Claim C2 (amended): after `initialize` on a tree without duplicate paths,
the snapshot contains the new record of every enumerated non-ignored file
that was successfully hashed, and it retains, unchanged, every prior record
whose path was not successfully processed this run — records present in the
store before the run are upserted over, never discarded. -/
theorem claimC2_amended (fs : List FSFile) (db : List FileRecord)
    (hnd : (fs.map FSFile.path).Nodup) :
    (∀ f c, f ∈ fs → should_ignore_file f.path = false → f.content = some c →
      lookupRec (init_db fs db).db f.path =
        some ⟨f.path, compute_hash c, f.mtime, f.size⟩) ∧
    (∀ p, p ∉ processedPaths fs →
      lookupRec (init_db fs db).db p = lookupRec db p) := by
  constructor
  · intro f c hf hig hc
    exact init_db_lookup_of_record fs db hnd f _ hf (by simp [initRecordOf, hig, hc])
  · intro p hpp
    apply init_db_lookup_untouched
    intro r hr heq
    exact hpp (heq ▸ initRecord_path_mem_processed fs r hr)

/-- Witness for the amended C2: a stale record survives an `init` run over an
empty tree. -/
theorem claimC2_witness :
    lookupRec (init_db [] [⟨"/old/x", "h0", 1, 1⟩]).db "/old/x" =
      lookupRec [⟨"/old/x", "h0", 1, 1⟩] "/old/x" :=
  (claimC2_amended [] [⟨"/old/x", "h0", 1, 1⟩] (by decide)).2 "/old/x" (by decide)

/-- Counterexample to claim C3: for a store state holding a record whose path
is not on disk, `initialize` keeps the stale record (it discards nothing),
so the immediately following `check` reports that path as removed — the
round-trip diff is not empty for every store state. -/
theorem claimC3_counterexample :
    (check_db [] (init_db [] [⟨"/gone/x", "h", 0, 0⟩]).db).removed = ["/gone/x"] := by
  decide

/-- Claim C3 (amended): starting from an empty store, `initialize` followed
immediately by `check` on the same unchanged tree (without duplicate paths)
yields a report whose added, modified and removed lists are all empty. -/
theorem claimC3_amended (fs : List FSFile) (hnd : (fs.map FSFile.path).Nodup) :
    (check_db fs (init_db fs []).db).added = [] ∧
    (check_db fs (init_db fs []).db).modified = [] ∧
    (check_db fs (init_db fs []).db).removed = [] := by
  refine ⟨?_, ?_, ?_⟩
  · rw [check_db_added_eq, List.filterMap_eq_nil_iff]
    intro f hf
    cases hig : should_ignore_file f.path
    · cases hc : f.content with
      | none => simp [addedEntry, hig, hc]
      | some c =>
        have hlook := init_db_lookup_of_record fs [] hnd f
          ⟨f.path, compute_hash c, f.mtime, f.size⟩ hf (by simp [initRecordOf, hig, hc])
        simp [addedEntry, hig, hc, lookupHash, hlook]
    · simp [addedEntry, hig]
  · rw [check_db_modified_eq, List.filterMap_eq_nil_iff]
    intro f hf
    cases hig : should_ignore_file f.path
    · cases hc : f.content with
      | none => simp [modifiedEntry, hig, hc]
      | some c =>
        have hlook := init_db_lookup_of_record fs [] hnd f
          ⟨f.path, compute_hash c, f.mtime, f.size⟩ hf (by simp [initRecordOf, hig, hc])
        simp [modifiedEntry, hig, hc, lookupHash, hlook]
    · simp [modifiedEntry, hig]
  · rw [check_db_removed_eq, List.filter_eq_nil_iff]
    intro p hp
    obtain ⟨r, hr, hrp⟩ := List.mem_map.mp hp
    rcases init_db_mem_path fs [] r hr with hin | hproc
    · cases hin
    · rw [← hrp]
      simp [processedPaths_subset_enumerated hproc]

/-- Witness for the amended C3 with one readable file. -/
theorem claimC3_witness :
    (check_db [⟨"/r/w3", some [3], 1, 1⟩]
        (init_db [⟨"/r/w3", some [3], 1, 1⟩] []).db).added = [] ∧
    (check_db [⟨"/r/w3", some [3], 1, 1⟩]
        (init_db [⟨"/r/w3", some [3], 1, 1⟩] []).db).modified = [] ∧
    (check_db [⟨"/r/w3", some [3], 1, 1⟩]
        (init_db [⟨"/r/w3", some [3], 1, 1⟩] []).db).removed = [] :=
  claimC3_amended [⟨"/r/w3", some [3], 1, 1⟩] (by decide)

/-- Counterexample to claim C4: on a run that successfully hashes ten files,
`init_db` issues two commits — one inside the loop when the processed counter
reaches ten, and the final one — not exactly one commit at the end. -/
theorem claimC4_counterexample :
    (init_db
      [⟨"/r/f0", some [], 0, 0⟩, ⟨"/r/f1", some [], 0, 0⟩, ⟨"/r/f2", some [], 0, 0⟩,
       ⟨"/r/f3", some [], 0, 0⟩, ⟨"/r/f4", some [], 0, 0⟩, ⟨"/r/f5", some [], 0, 0⟩,
       ⟨"/r/f6", some [], 0, 0⟩, ⟨"/r/f7", some [], 0, 0⟩, ⟨"/r/f8", some [], 0, 0⟩,
       ⟨"/r/f9", some [], 0, 0⟩] []).commits = 2 := by
  decide

/-- Claim C4 (amended): `init_db` commits inside the loop after every tenth
successfully processed file and once more at the end — n / 10 + 1 commits in
total for n successfully hashed files — so only runs with fewer than ten
processed files commit exactly once, and a failure mid-run can leave earlier
batches of upserts already durably committed. -/
theorem claimC4_amended (fs : List FSFile) (db : List FileRecord) :
    (init_db fs db).commits = (processedPaths fs).length / 10 + 1 := by
  rw [init_db_eq]
  rw [initRecord_length_eq]

/-- Counterexample to claim C6: with one tracked file whose digest fails,
the claimed formula (stored paths minus the successfully found paths) would
remove the path, but the run removes nothing, because the found set of the
code already contains the path whose digest failed. -/
theorem claimC6_counterexample :
    (check_db [⟨"/r/b", none, 0, 0⟩] [⟨"/r/b", "hb", 2, 2⟩]).removed ≠
      ([⟨"/r/b", "hb", 2, 2⟩].map FileRecord.path).filter
        (fun p => decide (p ∉ spec_successfullyFound [⟨"/r/b", none, 0, 0⟩])) := by
  decide

/-- Claim C6 (amended): after all enumerated paths are processed, removed
equals the stored paths minus the set of all enumerated non-ignored paths —
the found set of the run, which includes paths whose digest failed — and
every removed path is deleted from the table, before the single final
commit. -/
theorem claimC6_amended (fs : List FSFile) (db : List FileRecord) :
    (check_db fs db).removed =
      (db.map (·.path)).filter (fun p => decide (p ∉ enumeratedPaths fs)) ∧
    ∀ p ∈ (check_db fs db).removed, lookupRec (check_db fs db).db p = none := by
  refine ⟨check_db_removed_eq fs db, ?_⟩
  intro p hp
  rw [check_db_removed_eq] at hp
  rw [check_db_db_expand, lookupRec_foldl_deleteRec, if_pos hp]

/-- Witness for the amended C6: a stale record is removed and deleted. -/
theorem claimC6_witness :
    lookupRec (check_db [] [⟨"/w/z", "h", 0, 0⟩]).db "/w/z" = none :=
  (claimC6_amended [] [⟨"/w/z", "h", 0, 0⟩]).2 "/w/z" (by decide)
